import Mathlib

/-! Shallow embedding of the Amazon-Fashion-Reviews pipeline scripts
(`scripts/jsonl_processor.py` and `scripts/upload_streaming.py`) and
proofs about their record reading, file probing, batching, pacing,
S3 key naming and interrupt behaviour. -/

/-- Classification of one raw line of a JSONL file, exactly as the Python
code classifies it: blank after `strip()`, non-blank but failing
`json.loads`, or decoding to a record.  Records are JSON objects per the
data model, so `.keys()` succeeds on them; `α` is the record type. -/
inductive Line (α : Type) where
  | blank : Line α
  | malformed : Line α
  | valid : α → Line α
deriving DecidableEq

/-- The records of the valid lines, in file order. -/
def validRecords {α : Type} : List (Line α) → List α :=
  List.filterMap fun l => match l with
    | Line.valid r => some r
    | _ => none

/-- Number of lines that are non-blank (valid or malformed): what
`sum(1 for line in f if line.strip())` counts. -/
def countNonBlank {α : Type} : List (Line α) → Nat :=
  List.countP fun l => match l with
    | Line.blank => false
    | _ => true

/-- Truthiness of the optional `limit` argument in Python: both `None`
and `0` are falsy, so `if limit and i >= limit` never fires for them. -/
def pyTruthy : Option Nat → Bool
  | none => false
  | some n => n != 0

/-- Loop body of `JSONLProcessor.read_jsonl`: `i` is the raw `enumerate`
line index.  The bound check `if limit and i >= limit: break` runs before
each line is examined; blank lines are skipped, malformed lines are
logged and skipped, valid lines are appended. -/
def readJsonlAux {α : Type} (limit : Option Nat) : List (Line α) → Nat → List α
  | [], _ => []
  | l :: rest, i =>
    if pyTruthy limit && decide (limit.getD 0 ≤ i) then []
    else
      match l with
      | Line.valid r => r :: readJsonlAux limit rest (i + 1)
      | _ => readJsonlAux limit rest (i + 1)

/-- `JSONLProcessor.read_jsonl filepath limit` applied to an existing file
whose raw lines classify as `lines`. -/
def readJsonl {α : Type} (lines : List (Line α)) (limit : Option Nat) : List α :=
  readJsonlAux limit lines 0

/-- Result of `JSONLProcessor.get_file_info` for an existing file, with
the fields its caller `upload_in_batches` uses.  `sizeMbCentis` models
`round(size_bytes / (1024 * 1024), 2)` as an integer count of hundredths
of a MiB, rounding half up in place of Python float rounding. -/
structure FileInfo where
  fileExists : Bool
  sizeMbCentis : Nat
  line_count : Nat
deriving DecidableEq

/-- `JSONLProcessor.get_file_info` on an existing file of `size` bytes
whose raw lines classify as `lines`.  The probe first reads the raw first
line for a key sample; when that line is non-blank and fails to decode,
the `json.loads` exception aborts the surrounding `try` block before the
line counting runs, so `line_count` keeps its initial value `0`.
Otherwise the probe counts the non-blank lines of the file. -/
def getFileInfo {α : Type} (size : Nat) (lines : List (Line α)) : FileInfo where
  fileExists := true
  sizeMbCentis := (size * 100 + 524288) / 1048576
  line_count :=
    match lines.head? with
    | some Line.malformed => 0
    | _ => countNonBlank lines

/-- The `total_lines = info['line_count']` value that `upload_in_batches`
obtains from the probe. -/
def fileLineCount {α : Type} (lines : List (Line α)) : Nat :=
  (getFileInfo 0 lines).line_count

/-- The characters of the pattern removed by `.replace(".jsonl", "")`. -/
def jsonlPat : List Char := ['.', 'j', 's', 'o', 'n', 'l']

/-- Fuel-indexed left-to-right removal of every occurrence of `".jsonl"`:
the semantics of Python `str.replace(".jsonl", "")` (non-overlapping
occurrences, scanning left to right).  The fuel is at least the length of
the list, and each step consumes at least one character. -/
def stripAux : Nat → List Char → List Char
  | 0, l => l
  | _ + 1, [] => []
  | fuel + 1, c :: cs =>
    if jsonlPat.isPrefixOf (c :: cs) then stripAux fuel (cs.drop 5)
    else c :: stripAux fuel cs

/-- `filename = os.path.basename(filepath).replace(".jsonl", "")` from
`upload_in_batches`, applied to the basename. -/
def stripJsonl (s : String) : String := String.mk (stripAux s.data.length s.data)

/-- Fuel-indexed most-significant-first decimal digits of `n`. -/
def digitsAux : Nat → Nat → List Nat
  | 0, _ => []
  | fuel + 1, n => if n < 10 then [n] else digitsAux fuel (n / 10) ++ [n % 10]

/-- Decimal digit characters of `n`: the characters of Python `str(n)`. -/
def decStr (n : Nat) : List Char := (digitsAux (n + 1) n).map Nat.digitChar

/-- Characters of Python `f"{n:03d}"`: the decimal form of `n`, left
padded with zeros to width at least 3. -/
def pad3 (n : Nat) : List Char := List.replicate (3 - (decStr n).length) '0' ++ decStr n

/-- Characters of the S3 object key
`f"{s3_prefix}{filename}_batch{batch_num:03d}_{timestamp}.parquet"`,
where `filename` is the source basename after `.replace(".jsonl", "")`. -/
def s3KeyChars (kp fn ts : String) (k : Nat) : List Char :=
  kp.data ++ (stripJsonl fn).data ++ "_batch".data ++ pad3 k ++ "_".data ++ ts.data
    ++ ".parquet".data

/-- The S3 object key of batch number `k` in a run with key prefix `kp`,
source file basename `fn` and run timestamp `ts`. -/
def s3Key (kp fn ts : String) (k : Nat) : String := String.mk (s3KeyChars kp fn ts k)

/-- The specification's notion of "filename without its extension"
(`os.path.splitext` style: everything before the final dot, the whole
name when it has no dot), stated from the specification's words in order
to compare it against the code's `stripJsonl`. -/
def stripExt (s : String) : String :=
  if '.' ∈ s.data then String.mk (((s.data.reverse.dropWhile fun c => c != '.').drop 1).reverse)
  else s

/-- Observable outcome of one confirmed `upload_in_batches` run on an
existing file: the uploaded batches in upload order, their S3 keys,
whether a pacing wait followed each uploaded batch, the final `batch_num`
and `total_uploaded` counters (the values the closing or error report
prints), and whether the run ended in the generic exception handler (the
`ZeroDivisionError` paths: the in-loop progress print divides by
`total_lines`, the closing summary divides by `batch_num`). -/
structure RunResult (α : Type) where
  uploads : List (List α)
  keys : List String
  waitAfter : List Bool
  batchNum : Nat
  totalUploaded : Nat
  errored : Bool
deriving DecidableEq

/-- The streaming loop of `upload_in_batches`.  `b` is `batch_size`, `T`
is the probe's `total_lines`, `buf` is `batch_data`, `ln` is `line_num`
(count of successfully decoded records), `bn`/`tu` are
`batch_num`/`total_uploaded`, and `ups`/`ks`/`ws` accumulate the uploaded
batches, their keys, and the wait-after-batch flags.  A malformed line
hits `continue`; any other line falls through to the
`len(batch_data) >= batch_size` check.  Sealing a batch increments
`batch_num`, then prints progress (dividing by `total_lines`, which
raises `ZeroDivisionError` into the generic handler when `T = 0`), then
uploads, then waits `delay_seconds` exactly when `line_num < total_lines`.
After the loop a non-empty buffer is uploaded as the final short batch
with no wait; the closing summary divides by `batch_num`, which raises
into the generic handler when no batch was uploaded. -/
def runLoop {α : Type} (kp fn ts : String) (b T : Nat) :
    List (Line α) → List α → Nat → Nat → Nat → List (List α) → List String → List Bool →
      RunResult α
  | [], buf, _, bn, tu, ups, ks, ws =>
    if buf.isEmpty then ⟨ups, ks, ws, bn, tu, decide (bn = 0)⟩
    else
      ⟨ups ++ [buf], ks ++ [s3Key kp fn ts (bn + 1)], ws ++ [false], bn + 1,
        tu + buf.length, false⟩
  | Line.malformed :: rest, buf, ln, bn, tu, ups, ks, ws =>
    runLoop kp fn ts b T rest buf ln bn tu ups ks ws
  | Line.blank :: rest, buf, ln, bn, tu, ups, ks, ws =>
    if b ≤ buf.length then
      if T = 0 then ⟨ups, ks, ws, bn + 1, tu, true⟩
      else
        runLoop kp fn ts b T rest [] ln (bn + 1) (tu + buf.length) (ups ++ [buf])
          (ks ++ [s3Key kp fn ts (bn + 1)]) (ws ++ [decide (ln < T)])
    else runLoop kp fn ts b T rest buf ln bn tu ups ks ws
  | Line.valid r :: rest, buf, ln, bn, tu, ups, ks, ws =>
    if b ≤ (buf ++ [r]).length then
      if T = 0 then ⟨ups, ks, ws, bn + 1, tu, true⟩
      else
        runLoop kp fn ts b T rest [] (ln + 1) (bn + 1) (tu + (buf ++ [r]).length)
          (ups ++ [buf ++ [r]]) (ks ++ [s3Key kp fn ts (bn + 1)])
          (ws ++ [decide (ln + 1 < T)])
    else runLoop kp fn ts b T rest (buf ++ [r]) (ln + 1) bn tu ups ks ws

/-- A confirmed `upload_in_batches filepath batch_size` run on an existing
file whose raw lines classify as `lines`, with key prefix `kp`, source
basename `fn` and run timestamp `ts` (the timestamp is computed once,
before the loop, and shared by the whole run). -/
def uploadInBatches {α : Type} (kp fn ts : String) (lines : List (Line α)) (b : Nat) :
    RunResult α :=
  runLoop kp fn ts b (fileLineCount lines) lines [] 0 0 0 [] [] []

/-- Reference chunking of a record sequence into batches of `b`, with
`acc` the records already buffered: used to state what the streaming loop
uploads. -/
def chunksAux {α : Type} (b : Nat) : List α → List α → List (List α)
  | [], acc => if acc.isEmpty then [] else [acc]
  | x :: l, acc =>
    if b ≤ (acc ++ [x]).length then (acc ++ [x]) :: chunksAux b l []
    else chunksAux b l (acc ++ [x])

/-- Observable outcome of an `upload_in_batches` run that may be stopped
by `KeyboardInterrupt`: the completed uploads, the `batch_num` and
`total_uploaded` counters that the interrupt report prints, whether the
run ended in the `KeyboardInterrupt` handler, and whether it ended in the
generic exception handler. -/
structure IntResult (α : Type) where
  uploads : List (List α)
  reportedBatches : Nat
  reportedRecords : Nat
  interrupted : Bool
  errored : Bool
deriving DecidableEq

/-- The streaming loop of `upload_in_batches` with a user interrupt firing
after a given number of atomic steps.  The interruptible points modelled
are: the top of the scan loop (one step per scanned line), the seal
prelude (after `batch_num += 1`, before the upload call), the upload call
itself (the upload does not complete), and the pacing wait (modelled as
one step; the upload and the following `total_uploaded` update are
treated as one atomic step).  When the step budget reaches zero the
`KeyboardInterrupt` handler reports the current `batch_num` and
`total_uploaded`.  The `T = 0` seal prelude instead raises
`ZeroDivisionError` into the generic handler, as in `runLoop`. -/
def runInt {α : Type} (b T : Nat) :
    List (Line α) → Nat → List α → Nat → Nat → Nat → List (List α) → IntResult α
  | _, 0, _, _, bn, tu, ups => ⟨ups, bn, tu, true, false⟩
  | [], t + 1, buf, _, bn, tu, ups =>
    if buf.isEmpty then ⟨ups, bn, tu, false, decide (bn = 0)⟩
    else if t = 0 then ⟨ups, bn + 1, tu, true, false⟩
    else if t = 1 then ⟨ups, bn + 1, tu, true, false⟩
    else ⟨ups ++ [buf], bn + 1, tu + buf.length, false, false⟩
  | Line.malformed :: rest, t + 1, buf, ln, bn, tu, ups =>
    runInt b T rest t buf ln bn tu ups
  | Line.blank :: rest, t + 1, buf, ln, bn, tu, ups =>
    if b ≤ buf.length then
      if t = 0 then ⟨ups, bn + 1, tu, true, false⟩
      else if T = 0 then ⟨ups, bn + 1, tu, false, true⟩
      else if t = 1 then ⟨ups, bn + 1, tu, true, false⟩
      else if ln < T then
        if t = 2 then ⟨ups ++ [buf], bn + 1, tu + buf.length, true, false⟩
        else runInt b T rest (t - 3) [] ln (bn + 1) (tu + buf.length) (ups ++ [buf])
      else runInt b T rest (t - 2) [] ln (bn + 1) (tu + buf.length) (ups ++ [buf])
    else runInt b T rest t buf ln bn tu ups
  | Line.valid r :: rest, t + 1, buf, ln, bn, tu, ups =>
    if b ≤ (buf ++ [r]).length then
      if t = 0 then ⟨ups, bn + 1, tu, true, false⟩
      else if T = 0 then ⟨ups, bn + 1, tu, false, true⟩
      else if t = 1 then ⟨ups, bn + 1, tu, true, false⟩
      else if ln + 1 < T then
        if t = 2 then ⟨ups ++ [buf ++ [r]], bn + 1, tu + (buf ++ [r]).length, true, false⟩
        else
          runInt b T rest (t - 3) [] (ln + 1) (bn + 1) (tu + (buf ++ [r]).length)
            (ups ++ [buf ++ [r]])
      else
        runInt b T rest (t - 2) [] (ln + 1) (bn + 1) (tu + (buf ++ [r]).length)
          (ups ++ [buf ++ [r]])
    else runInt b T rest t (buf ++ [r]) (ln + 1) bn tu ups

/-- A confirmed `upload_in_batches` run on an existing file interrupted by
the user after `ticks` atomic steps. -/
def runIntTop {α : Type} (lines : List (Line α)) (b ticks : Nat) : IntResult α :=
  runInt b (fileLineCount lines) lines ticks [] 0 0 0 []

theorem validRecords_cons_blank {α : Type} (rest : List (Line α)) :
    validRecords (Line.blank :: rest) = validRecords rest := rfl

theorem validRecords_cons_malformed {α : Type} (rest : List (Line α)) :
    validRecords (Line.malformed :: rest) = validRecords rest := rfl

theorem validRecords_cons_valid {α : Type} (r : α) (rest : List (Line α)) :
    validRecords (Line.valid r :: rest) = r :: validRecords rest := rfl

theorem countNonBlank_cons_blank {α : Type} (rest : List (Line α)) :
    countNonBlank (Line.blank :: rest) = countNonBlank rest := by
  simp [countNonBlank, List.countP_cons]

theorem countNonBlank_cons_malformed {α : Type} (rest : List (Line α)) :
    countNonBlank (Line.malformed :: rest) = countNonBlank rest + 1 := by
  simp [countNonBlank, List.countP_cons]

theorem countNonBlank_cons_valid {α : Type} (r : α) (rest : List (Line α)) :
    countNonBlank (Line.valid r :: rest) = countNonBlank rest + 1 := by
  simp [countNonBlank, List.countP_cons]

theorem readJsonlAux_falsy {α : Type} (limit : Option Nat) (h : pyTruthy limit = false) :
    ∀ (lines : List (Line α)) (i : Nat), readJsonlAux limit lines i = validRecords lines := by
  intro lines
  induction lines with
  | nil => intro i; rfl
  | cons l rest ih =>
    intro i
    cases l <;> simp [readJsonlAux, h, validRecords_cons_blank, validRecords_cons_malformed,
      validRecords_cons_valid, ih]

theorem readJsonlAux_some {α : Type} (L : Nat) :
    ∀ (lines : List (Line α)) (i : Nat), 1 ≤ L → i ≤ L →
      readJsonlAux (some L) lines i = validRecords (lines.take (L - i)) := by
  intro lines
  induction lines with
  | nil => intro i _ _; simp [readJsonlAux, validRecords]
  | cons l rest ih =>
    intro i hL hi
    by_cases hbreak : L ≤ i
    · have hiL : i = L := Nat.le_antisymm hi hbreak
      have : L - i = 0 := by omega
      simp [readJsonlAux, pyTruthy, this, hiL, validRecords, Nat.ne_of_gt hL]
    · have hlt : i < L := Nat.lt_of_not_le hbreak
      have htake : L - i = (L - (i + 1)) + 1 := by omega
      have hnb : ¬ (pyTruthy (some L) && decide ((some L).getD 0 ≤ i)) = true := by
        simp [pyTruthy]
        omega
      cases l with
      | blank =>
        simp only [readJsonlAux, hnb, if_neg, Bool.not_eq_true]
        rw [ih (i + 1) hL (by omega), htake]
        simp [validRecords_cons_blank, List.take_succ_cons]
      | malformed =>
        simp only [readJsonlAux, hnb, if_neg, Bool.not_eq_true]
        rw [ih (i + 1) hL (by omega), htake]
        simp [validRecords_cons_malformed, List.take_succ_cons]
      | valid r =>
        simp only [readJsonlAux, hnb, if_neg, Bool.not_eq_true]
        rw [ih (i + 1) hL (by omega), htake]
        simp [validRecords_cons_valid, List.take_succ_cons]

/-- Claim C10: calling `read_jsonl` with `limit = 0` does not return an
empty list: the check `if limit and i >= limit` treats `0` as absent, so
every valid record of the file is returned, exactly as with no limit. -/
theorem c10_limit_zero {α : Type} (lines : List (Line α)) :
    readJsonl lines (some 0) = readJsonl lines none ∧
    readJsonl lines none = validRecords lines := by
  constructor
  · rw [readJsonl, readJsonl, readJsonlAux_falsy (some 0) rfl, readJsonlAux_falsy none rfl]
  · rw [readJsonl, readJsonlAux_falsy none rfl]

/-- Claim C4, counterexample: with `limit = 1` on a file whose first line
is blank and whose second line holds a valid record, `read_jsonl` returns
no records at all, although one valid record exists; the bound counts raw
lines, not valid records, so the claim as stated is false. -/
theorem c4_counterexample :
    ¬ (readJsonl ([Line.blank, Line.valid 0] : List (Line Nat)) (some 1)
        = (validRecords ([Line.blank, Line.valid 0] : List (Line Nat))).take 1) ∧
    readJsonl ([Line.blank, Line.valid 0] : List (Line Nat)) (some 1) = [] ∧
    validRecords ([Line.blank, Line.valid 0] : List (Line Nat)) = [0] := by decide

/-- Claim C4, amended: for a supplied maximum count `L ≥ 1`,
`read_jsonl` stops after scanning `L` raw lines (blank and malformed
lines count toward `L`) and returns the valid records found among the
first `L` lines of the file; lines beyond the `L`-th are never read. -/
theorem c4_amended {α : Type} (lines : List (Line α)) (L : Nat) (h : 1 ≤ L) :
    readJsonl lines (some L) = validRecords (lines.take L) := by
  have := readJsonlAux_some L lines 0 h (by omega)
  simpa [readJsonl] using this

theorem c4_amended_witness :
    1 ≤ 2 ∧
    readJsonl ([Line.blank, Line.valid 5, Line.valid 6, Line.malformed] : List (Line Nat))
        (some 2)
      = validRecords (([Line.blank, Line.valid 5, Line.valid 6, Line.malformed]
          : List (Line Nat)).take 2) :=
  ⟨by decide, c4_amended _ 2 (by decide)⟩

/-- Claim C6, counterexample: on an existing one-line file whose single
line is non-blank but not valid JSON, `get_file_info` reports
`line_count = 0` instead of the non-blank line count `1`, because the
failing `json.loads` sample aborts the `try` block before the counting
loop runs; so the count is not independent of line validity. -/
theorem c6_counterexample :
    ¬ ((getFileInfo 1048576 ([Line.malformed] : List (Line Nat))).line_count
        = countNonBlank ([Line.malformed] : List (Line Nat))) := by decide

/-- Claim C6, amended: for every existing file whose first line is not a
malformed non-blank line, `get_file_info` reports `exists = true`, the
byte size divided by `1024 * 1024` rounded to 2 decimals, and the number
of non-blank lines regardless of the validity of the remaining lines;
when the first line is non-blank and malformed, `line_count` is reported
as `0`. -/
theorem c6_amended {α : Type} (size : Nat) (lines : List (Line α))
    (h : lines.head? ≠ some Line.malformed) :
    (getFileInfo size lines).fileExists = true ∧
    (getFileInfo size lines).sizeMbCentis = (size * 100 + 524288) / 1048576 ∧
    (getFileInfo size lines).line_count = countNonBlank lines := by
  refine ⟨rfl, rfl, ?_⟩
  cases lines with
  | nil => rfl
  | cons l rest =>
    cases l with
    | blank => rfl
    | valid r => rfl
    | malformed => exact absurd rfl h

theorem c6_amended_witness :
    ([Line.valid 7, Line.malformed, Line.blank] : List (Line Nat)).head?
        ≠ some Line.malformed ∧
    (getFileInfo 3145728 ([Line.valid 7, Line.malformed, Line.blank]
        : List (Line Nat))).fileExists = true ∧
    (getFileInfo 3145728 ([Line.valid 7, Line.malformed, Line.blank]
        : List (Line Nat))).sizeMbCentis = (3145728 * 100 + 524288) / 1048576 ∧
    (getFileInfo 3145728 ([Line.valid 7, Line.malformed, Line.blank]
        : List (Line Nat))).line_count
      = countNonBlank ([Line.valid 7, Line.malformed, Line.blank] : List (Line Nat)) :=
  ⟨by decide, c6_amended 3145728 _ (by decide)⟩

/-- Claim C3: on an existing file with zero non-blank lines a confirmed
run uploads zero batches and its report prints zero batches and zero
records, but the run does not complete cleanly: the closing summary
computes `total_time / batch_num` with `batch_num = 0`, raising
`ZeroDivisionError` into the generic handler, which reports an error.
This evaluates the model at that failing input. -/
theorem c3_empty_file_eval :
    (uploadInBatches "raw/data/" "meta_Amazon_Fashion.jsonl" "20250101_000000"
        ([] : List (Line Nat)) 1000).uploads = [] ∧
    (uploadInBatches "raw/data/" "meta_Amazon_Fashion.jsonl" "20250101_000000"
        ([] : List (Line Nat)) 1000).batchNum = 0 ∧
    (uploadInBatches "raw/data/" "meta_Amazon_Fashion.jsonl" "20250101_000000"
        ([] : List (Line Nat)) 1000).totalUploaded = 0 ∧
    (uploadInBatches "raw/data/" "meta_Amazon_Fashion.jsonl" "20250101_000000"
        ([] : List (Line Nat)) 1000).errored = true := by decide

/-- Claim C1: on a file whose first line is malformed the probe reports
`total_lines = 0`, and the first sealed batch's progress print then
divides by zero, aborting the run before any upload.  With one valid
record and `batch_size = 1` the run uploads `0` batches instead of
`ceil(1 / 1) = 1`.  This evaluates the model at that failing input. -/
theorem c1_crash_eval :
    (validRecords ([Line.malformed, Line.valid 0] : List (Line Nat))).length = 1 ∧
    (uploadInBatches "raw/data/" "c1.jsonl" "20250101_000000"
        ([Line.malformed, Line.valid 0] : List (Line Nat)) 1).uploads.length = 0 ∧
    (uploadInBatches "raw/data/" "c1.jsonl" "20250101_000000"
        ([Line.malformed, Line.valid 0] : List (Line Nat)) 1).errored = true := by decide

/-- Claim C2: at the same failing input as C1 the concatenation of the
uploaded batches is empty while the file's valid-record sequence is not,
so a valid record is lost.  This evaluates the model at that input. -/
theorem c2_crash_eval :
    validRecords ([Line.malformed, Line.valid 0] : List (Line Nat)) = [0] ∧
    (uploadInBatches "raw/data/" "c2.jsonl" "20250101_000000"
        ([Line.malformed, Line.valid 0] : List (Line Nat)) 1).uploads.flatten = [] := by decide

/-- Claim C9: a non-blank undecodable first line makes the probe report
`total_lines = 0`, and the first sealed batch's progress print divides by
zero, aborting the run; with the malformed line removed the same file
uploads its batch and completes cleanly, so the malformed line changes
the run's outcome.  This evaluates the model at both inputs. -/
theorem c9_crash_eval :
    (uploadInBatches "raw/data/" "c9.jsonl" "20250101_000000"
        ([Line.malformed, Line.valid 0] : List (Line Nat)) 1).errored = true ∧
    (uploadInBatches "raw/data/" "c9.jsonl" "20250101_000000"
        ([Line.malformed, Line.valid 0] : List (Line Nat)) 1).uploads = [] ∧
    (uploadInBatches "raw/data/" "c9.jsonl" "20250101_000000"
        ([Line.valid 0] : List (Line Nat)) 1).errored = false ∧
    (uploadInBatches "raw/data/" "c9.jsonl" "20250101_000000"
        ([Line.valid 0] : List (Line Nat)) 1).uploads = [[0]] := by decide

theorem chunksAux_length {α : Type} (b : Nat) :
    ∀ (l acc : List α), acc.length < b →
      (chunksAux b l acc).length = (acc.length + l.length + b - 1) / b := by
  intro l
  induction l with
  | nil =>
    intro acc hacc
    by_cases h : acc.isEmpty
    · have hnil : acc = [] := List.isEmpty_iff.mp h
      subst hnil
      simp only [chunksAux, List.isEmpty_nil, if_pos, List.length_nil]
      rw [Nat.div_eq_of_lt (by omega)]
    · have hne : acc ≠ [] := fun hn => h (by simp [hn])
      have h1 : 1 ≤ acc.length := List.length_pos.mpr hne
      simp only [chunksAux, h, Bool.false_eq_true, if_false, List.length_singleton,
        List.length_nil]
      rw [show acc.length + 0 + b - 1 = (acc.length - 1) + b by omega,
        Nat.add_div_right _ (by omega : 0 < b), Nat.div_eq_of_lt (by omega)]
  | cons x xs ih =>
    intro acc hacc
    simp only [chunksAux]
    by_cases hseal : b ≤ (acc ++ [x]).length
    · rw [if_pos hseal]
      have hlen : acc.length + 1 = b := by
        simp only [List.length_append, List.length_singleton] at hseal
        omega
      rw [List.length_cons, ih [] (by simp only [List.length_nil]; omega)]
      simp only [List.length_nil, List.length_cons, Nat.zero_add]
      rw [show acc.length + (xs.length + 1) + b - 1 = (xs.length + b - 1) + b by omega,
        Nat.add_div_right _ (by omega : 0 < b)]
    · rw [if_neg hseal]
      have hlt : (acc ++ [x]).length < b := by
        simp only [List.length_append, List.length_singleton] at hseal ⊢
        omega
      rw [ih (acc ++ [x]) hlt]
      have hnum : (acc ++ [x]).length + xs.length + b - 1
          = acc.length + (xs.length + 1) + b - 1 := by
        simp only [List.length_append, List.length_singleton]
        omega
      rw [hnum]
      simp only [List.length_cons]

theorem chunksAux_cons_seal {α : Type} (b : Nat) (x : α) (l acc : List α)
    (h : b ≤ (acc ++ [x]).length) :
    chunksAux b (x :: l) acc = (acc ++ [x]) :: chunksAux b l [] := by
  simp only [chunksAux, if_pos h]

theorem chunksAux_cons_noseal {α : Type} (b : Nat) (x : α) (l acc : List α)
    (h : ¬ b ≤ (acc ++ [x]).length) :
    chunksAux b (x :: l) acc = chunksAux b l (acc ++ [x]) := by
  simp only [chunksAux, if_neg h]

theorem runLoop_spec {α : Type} (kp fn ts : String) (b T : Nat) (hb : 1 ≤ b) :
    ∀ (rest : List (Line α)) (buf : List α) (ln bn tu : Nat) (ups : List (List α))
      (ks : List String) (ws : List Bool),
      buf.length < b → ln + countNonBlank rest ≤ T →
      (runLoop kp fn ts b T rest buf ln bn tu ups ks ws).uploads
          = ups ++ chunksAux b (validRecords rest) buf ∧
      (runLoop kp fn ts b T rest buf ln bn tu ups ks ws).keys
          = ks ++ (List.range (chunksAux b (validRecords rest) buf).length).map
              (fun i => s3Key kp fn ts (bn + 1 + i)) := by
  intro rest
  induction rest with
  | nil =>
    intro buf ln bn tu ups ks ws hbuf hT
    by_cases h : buf.isEmpty
    · simp [runLoop, h, chunksAux, validRecords]
    · simp [runLoop, h, chunksAux, validRecords, List.range_succ, List.range_zero]
  | cons l rest ih =>
    intro buf ln bn tu ups ks ws hbuf hT
    cases l with
    | malformed =>
      rw [countNonBlank_cons_malformed] at hT
      simpa [runLoop, validRecords_cons_malformed] using
        ih buf ln bn tu ups ks ws hbuf (by omega)
    | blank =>
      rw [countNonBlank_cons_blank] at hT
      have hns : ¬ b ≤ buf.length := by omega
      simp only [runLoop, if_neg hns]
      simpa [validRecords_cons_blank] using ih buf ln bn tu ups ks ws hbuf hT
    | valid r =>
      rw [countNonBlank_cons_valid] at hT
      by_cases hseal : b ≤ (buf ++ [r]).length
      · have hT0 : ¬ T = 0 := by omega
        simp only [runLoop, if_pos hseal, if_neg hT0]
        obtain ⟨hu, hk⟩ := ih [] (ln + 1) (bn + 1) (tu + (buf ++ [r]).length)
          (ups ++ [buf ++ [r]]) (ks ++ [s3Key kp fn ts (bn + 1)])
          (ws ++ [decide (ln + 1 < T)]) (by simpa using hb) (by omega)
        rw [validRecords_cons_valid, chunksAux_cons_seal b r _ _ hseal]
        have hfn : ((fun i => s3Key kp fn ts (bn + 1 + i)) ∘ Nat.succ)
            = (fun i => s3Key kp fn ts (bn + 1 + 1 + i)) := by
          funext i
          simp only [Function.comp_apply]
          congr 1
          omega
        constructor
        · rw [hu, List.append_assoc]
          rfl
        · rw [hk]
          simp only [List.length_cons, List.range_succ_eq_map, List.map_cons, List.map_map,
            hfn, List.append_assoc, List.singleton_append, Nat.add_zero]
      · simp only [runLoop, if_neg hseal]
        have hlt : (buf ++ [r]).length < b := by omega
        rw [validRecords_cons_valid, chunksAux_cons_noseal b r _ _ hseal]
        exact ih (buf ++ [r]) (ln + 1) bn tu ups ks ws hlt (by omega)

theorem noMalformed_count {α : Type} :
    ∀ lines : List (Line α), Line.malformed ∉ lines →
      countNonBlank lines = (validRecords lines).length := by
  intro lines
  induction lines with
  | nil => intro _; rfl
  | cons l rest ih =>
    intro hm
    have hm' : Line.malformed ∉ rest := fun h => hm (List.mem_cons_of_mem _ h)
    cases l with
    | malformed => exact absurd (List.mem_cons_self _ _) hm
    | blank => rw [countNonBlank_cons_blank, validRecords_cons_blank, ih hm']
    | valid r =>
      rw [countNonBlank_cons_valid, validRecords_cons_valid, List.length_cons, ih hm']

theorem runLoop_waits {α : Type} (kp fn ts : String) (b T : Nat) (hb : 1 ≤ b) :
    ∀ (rest : List (Line α)) (buf : List α) (ln bn tu : Nat) (ups : List (List α))
      (ks : List String) (ws : List Bool),
      buf.length < b → Line.malformed ∉ rest → T = ln + countNonBlank rest →
      (runLoop kp fn ts b T rest buf ln bn tu ups ks ws).waitAfter
          = ws ++ (List.range (chunksAux b (validRecords rest) buf).length).map
              (fun i => decide (i + 1 < (chunksAux b (validRecords rest) buf).length)) := by
  intro rest
  induction rest with
  | nil =>
    intro buf ln bn tu ups ks ws hbuf hm hT
    by_cases h : buf.isEmpty
    · simp [runLoop, h, chunksAux, validRecords]
    · simp [runLoop, h, chunksAux, validRecords, List.range_succ, List.range_zero]
  | cons l rest ih =>
    intro buf ln bn tu ups ks ws hbuf hm hT
    have hm' : Line.malformed ∉ rest := fun hx => hm (List.mem_cons_of_mem _ hx)
    cases l with
    | malformed => exact absurd (List.mem_cons_self _ _) hm
    | blank =>
      rw [countNonBlank_cons_blank] at hT
      have hns : ¬ b ≤ buf.length := by omega
      simp only [runLoop, if_neg hns]
      simpa [validRecords_cons_blank] using ih buf ln bn tu ups ks ws hbuf hm' hT
    | valid r =>
      rw [countNonBlank_cons_valid] at hT
      by_cases hseal : b ≤ (buf ++ [r]).length
      · have hT0 : ¬ T = 0 := by omega
        simp only [runLoop, if_pos hseal, if_neg hT0]
        have hrec := ih [] (ln + 1) (bn + 1) (tu + (buf ++ [r]).length)
          (ups ++ [buf ++ [r]]) (ks ++ [s3Key kp fn ts (bn + 1)])
          (ws ++ [decide (ln + 1 < T)]) (by simp only [List.length_nil]; omega) hm'
          (by omega)
        rw [validRecords_cons_valid, chunksAux_cons_seal b r _ _ hseal, hrec]
        have hmlen : (chunksAux b (validRecords rest) ([] : List α)).length
            = ((validRecords rest).length + b - 1) / b := by
          have := chunksAux_length b (validRecords rest) []
            (by simp only [List.length_nil]; omega)
          simpa using this
        have hpos : 0 < (chunksAux b (validRecords rest) ([] : List α)).length
            ↔ 0 < (validRecords rest).length := by
          rw [hmlen]
          constructor
          · intro hp
            by_contra hz
            have hz0 : (validRecords rest).length = 0 := by omega
            rw [hz0] at hp
            rw [Nat.div_eq_of_lt (by omega)] at hp
            omega
          · intro hp
            have : b ≤ (validRecords rest).length + b - 1 := by omega
            have := (Nat.one_le_div_iff (by omega : 0 < b)).mpr this
            omega
        have hw : decide (ln + 1 < T)
            = decide (0 + 1 < (chunksAux b (validRecords rest) ([] : List α)).length + 1) := by
          rw [decide_eq_decide, noMalformed_count rest hm'] at *
          constructor
          · intro hlt
            have : 0 < (validRecords rest).length := by omega
            have := hpos.mpr this
            omega
          · intro hlt
            have : 0 < (chunksAux b (validRecords rest) ([] : List α)).length := by omega
            have := hpos.mp this
            omega
        have hfn : ((fun i =>
              decide (i + 1 < (chunksAux b (validRecords rest) ([] : List α)).length + 1))
                ∘ Nat.succ)
            = (fun i =>
                decide (i + 1 < (chunksAux b (validRecords rest) ([] : List α)).length)) := by
          funext i
          simp only [Function.comp_apply]
          rw [decide_eq_decide]
          omega
        rw [List.length_cons, List.range_succ_eq_map, List.map_cons, List.map_map, hfn,
          List.append_assoc, List.singleton_append, Nat.zero_add, hw]
      · simp only [runLoop, if_neg hseal]
        have hlt : (buf ++ [r]).length < b := by omega
        rw [validRecords_cons_valid, chunksAux_cons_noseal b r _ _ hseal]
        exact ih (buf ++ [r]) (ln + 1) bn tu ups ks ws hlt hm' (by omega)

theorem rangePattern_count (m : Nat) :
    ((List.range m).map (fun i => decide (i + 1 < m))).count true = m - 1 := by
  cases m with
  | zero => rfl
  | succ k =>
    rw [List.range_succ, List.map_append, List.count_append]
    have h1 : ((List.range k).map (fun i => decide (i + 1 < k + 1))).count true
        = ((List.range k).map (fun i => decide (i + 1 < k + 1))).length := by
      rw [List.count_eq_length]
      intro x hx
      obtain ⟨i, hi, rfl⟩ := List.mem_map.mp hx
      have : i < k := List.mem_range.mp hi
      exact (decide_eq_true (by omega)).symm
    rw [h1, List.length_map, List.length_range]
    simp

theorem fileLineCount_of_noMalformed {α : Type} (lines : List (Line α))
    (hm : Line.malformed ∉ lines) : fileLineCount lines = countNonBlank lines := by
  cases lines with
  | nil => rfl
  | cons l rest =>
    cases l with
    | malformed => exact absurd (List.mem_cons_self _ _) hm
    | blank => rfl
    | valid r => rfl

/-- Claim C5, counterexample: on a file holding one valid record followed
by one malformed line, with `batch_size = 1`, the run uploads exactly one
batch (so that batch is the last one) and still performs a pacing wait
after it, because the code compares `line_num` (valid records scanned)
with the probe's `total_lines` (non-blank lines, malformed included); so
a wait does follow the final batch and the claim as stated is false. -/
theorem c5_counterexample :
    (uploadInBatches "raw/data/" "c5.jsonl" "20250101_000000"
        ([Line.valid 0, Line.malformed] : List (Line Nat)) 1).uploads.length = 1 ∧
    (uploadInBatches "raw/data/" "c5.jsonl" "20250101_000000"
        ([Line.valid 0, Line.malformed] : List (Line Nat)) 1).waitAfter = [true] := by decide

/-- Claim C5, amended: in every confirmed run on a file whose non-blank
lines all decode successfully (no malformed lines), a pacing wait of
`delay_seconds` occurs after an uploaded batch exactly when that batch is
not the last one, so exactly `batch_count - 1` waits occur and no wait
follows the final batch.  (With malformed lines present the code's
`line_num < total_lines` test can add a wait after the final batch.) -/
theorem c5_amended {α : Type} (kp fn ts : String) (lines : List (Line α)) (b : Nat)
    (hb : 1 ≤ b) (hm : Line.malformed ∉ lines) :
    (uploadInBatches kp fn ts lines b).waitAfter
        = (List.range (uploadInBatches kp fn ts lines b).uploads.length).map
            (fun i => decide (i + 1 < (uploadInBatches kp fn ts lines b).uploads.length)) ∧
    (uploadInBatches kp fn ts lines b).waitAfter.count true
        = (uploadInBatches kp fn ts lines b).uploads.length - 1 := by
  have hfl : fileLineCount lines = countNonBlank lines := fileLineCount_of_noMalformed lines hm
  have hu := (runLoop_spec kp fn ts b (fileLineCount lines) hb lines [] 0 0 0 [] [] []
    (by simp only [List.length_nil]; omega) (by omega)).1
  have hw := runLoop_waits kp fn ts b (fileLineCount lines) hb lines [] 0 0 0 [] [] []
    (by simp only [List.length_nil]; omega) hm (by omega)
  have hmain : (uploadInBatches kp fn ts lines b).waitAfter
      = (List.range (uploadInBatches kp fn ts lines b).uploads.length).map
          (fun i => decide (i + 1 < (uploadInBatches kp fn ts lines b).uploads.length)) := by
    rw [uploadInBatches, hw, hu]
    simp
  refine ⟨hmain, ?_⟩
  rw [hmain]
  exact rangePattern_count _

theorem c5_amended_witness :
    1 ≤ 2 ∧
    Line.malformed ∉ ([Line.valid 1, Line.valid 2, Line.valid 3] : List (Line Nat)) ∧
    (uploadInBatches "raw/data/" "w5.jsonl" "20250101_000000"
        ([Line.valid 1, Line.valid 2, Line.valid 3] : List (Line Nat)) 2).waitAfter
      = (List.range (uploadInBatches "raw/data/" "w5.jsonl" "20250101_000000"
          ([Line.valid 1, Line.valid 2, Line.valid 3] : List (Line Nat)) 2).uploads.length).map
          (fun i => decide (i + 1 < (uploadInBatches "raw/data/" "w5.jsonl" "20250101_000000"
            ([Line.valid 1, Line.valid 2, Line.valid 3] : List (Line Nat)) 2).uploads.length)) ∧
    (uploadInBatches "raw/data/" "w5.jsonl" "20250101_000000"
        ([Line.valid 1, Line.valid 2, Line.valid 3] : List (Line Nat)) 2).waitAfter.count true
      = (uploadInBatches "raw/data/" "w5.jsonl" "20250101_000000"
          ([Line.valid 1, Line.valid 2, Line.valid 3] : List (Line Nat)) 2).uploads.length - 1 :=
  ⟨by decide, by decide,
    (c5_amended "raw/data/" "w5.jsonl" "20250101_000000" _ 2 (by decide) (by decide)).1,
    (c5_amended "raw/data/" "w5.jsonl" "20250101_000000" _ 2 (by decide) (by decide)).2⟩
theorem runInt_ticks_zero {α : Type} (b T : Nat) (lines : List (Line α)) (buf : List α)
    (ln bn tu : Nat) (ups : List (List α)) :
    runInt b T lines 0 buf ln bn tu ups = ⟨ups, bn, tu, true, false⟩ := by
  cases lines with
  | nil => rfl
  | cons l rest => cases l <;> rfl

theorem sum_append_single {α : Type} (ups : List (List α)) (x : List α) :
    (((ups ++ [x]).map List.length).sum : Nat) = (ups.map List.length).sum + x.length := by
  simp

theorem runInt_report {α : Type} (b T : Nat) :
    ∀ (lines : List (Line α)) (ticks : Nat) (buf : List α) (ln bn tu : Nat)
      (ups : List (List α)),
      bn = ups.length → tu = (ups.map List.length).sum →
      (runInt b T lines ticks buf ln bn tu ups).interrupted = true →
      (runInt b T lines ticks buf ln bn tu ups).reportedRecords
          = ((runInt b T lines ticks buf ln bn tu ups).uploads.map List.length).sum ∧
      ((runInt b T lines ticks buf ln bn tu ups).reportedBatches
          = (runInt b T lines ticks buf ln bn tu ups).uploads.length ∨
        (runInt b T lines ticks buf ln bn tu ups).reportedBatches
          = (runInt b T lines ticks buf ln bn tu ups).uploads.length + 1) ∧
      (runInt b T lines ticks buf ln bn tu ups).errored = false := by
  intro lines
  induction lines with
  | nil =>
    intro ticks buf ln bn tu ups hbn htu hint
    cases ticks with
    | zero =>
      rw [runInt_ticks_zero] at hint ⊢
      exact ⟨htu, Or.inl hbn, rfl⟩
    | succ t =>
      simp only [runInt] at hint ⊢
      by_cases h : buf.isEmpty
      · rw [if_pos h] at hint ⊢
        simp at hint
      · rw [if_neg h] at hint ⊢
        by_cases h0 : t = 0
        · rw [if_pos h0] at hint ⊢
          exact ⟨htu, Or.inr (by rw [hbn]), rfl⟩
        · rw [if_neg h0] at hint ⊢
          by_cases h1 : t = 1
          · rw [if_pos h1] at hint ⊢
            exact ⟨htu, Or.inr (by rw [hbn]), rfl⟩
          · rw [if_neg h1] at hint ⊢
            simp at hint
  | cons l rest ih =>
    intro ticks buf ln bn tu ups hbn htu hint
    cases ticks with
    | zero =>
      rw [runInt_ticks_zero] at hint ⊢
      exact ⟨htu, Or.inl hbn, rfl⟩
    | succ t =>
      cases l with
      | malformed =>
        simp only [runInt] at hint ⊢
        exact ih t buf ln bn tu ups hbn htu hint
      | blank =>
        simp only [runInt] at hint ⊢
        by_cases hs : b ≤ buf.length
        · rw [if_pos hs] at hint ⊢
          by_cases h0 : t = 0
          · rw [if_pos h0] at hint ⊢
            exact ⟨htu, Or.inr (by rw [hbn]), rfl⟩
          · rw [if_neg h0] at hint ⊢
            by_cases hT : T = 0
            · rw [if_pos hT] at hint ⊢
              simp at hint
            · rw [if_neg hT] at hint ⊢
              by_cases h1 : t = 1
              · rw [if_pos h1] at hint ⊢
                exact ⟨htu, Or.inr (by rw [hbn]), rfl⟩
              · rw [if_neg h1] at hint ⊢
                by_cases hw : ln < T
                · rw [if_pos hw] at hint ⊢
                  by_cases h2 : t = 2
                  · rw [if_pos h2] at hint ⊢
                    refine ⟨?_, Or.inl ?_, rfl⟩
                    · rw [htu, sum_append_single]
                    · rw [hbn]
                      simp
                  · rw [if_neg h2] at hint ⊢
                    exact ih (t - 3) [] ln (bn + 1) (tu + buf.length) (ups ++ [buf])
                      (by rw [hbn]; simp) (by rw [htu, sum_append_single]) hint
                · rw [if_neg hw] at hint ⊢
                  exact ih (t - 2) [] ln (bn + 1) (tu + buf.length) (ups ++ [buf])
                    (by rw [hbn]; simp) (by rw [htu, sum_append_single]) hint
        · rw [if_neg hs] at hint ⊢
          exact ih t buf ln bn tu ups hbn htu hint
      | valid r =>
        simp only [runInt] at hint ⊢
        by_cases hs : b ≤ (buf ++ [r]).length
        · rw [if_pos hs] at hint ⊢
          by_cases h0 : t = 0
          · rw [if_pos h0] at hint ⊢
            exact ⟨htu, Or.inr (by rw [hbn]), rfl⟩
          · rw [if_neg h0] at hint ⊢
            by_cases hT : T = 0
            · rw [if_pos hT] at hint ⊢
              simp at hint
            · rw [if_neg hT] at hint ⊢
              by_cases h1 : t = 1
              · rw [if_pos h1] at hint ⊢
                exact ⟨htu, Or.inr (by rw [hbn]), rfl⟩
              · rw [if_neg h1] at hint ⊢
                by_cases hw : ln + 1 < T
                · rw [if_pos hw] at hint ⊢
                  by_cases h2 : t = 2
                  · rw [if_pos h2] at hint ⊢
                    refine ⟨?_, Or.inl ?_, rfl⟩
                    · rw [htu, sum_append_single]
                    · rw [hbn]
                      simp
                  · rw [if_neg h2] at hint ⊢
                    exact ih (t - 3) [] (ln + 1) (bn + 1) (tu + (buf ++ [r]).length)
                      (ups ++ [buf ++ [r]]) (by rw [hbn]; simp)
                      (by rw [htu, sum_append_single]) hint
                · rw [if_neg hw] at hint ⊢
                  exact ih (t - 2) [] (ln + 1) (bn + 1) (tu + (buf ++ [r]).length)
                    (ups ++ [buf ++ [r]]) (by rw [hbn]; simp)
                    (by rw [htu, sum_append_single]) hint
        · rw [if_neg hs] at hint ⊢
          exact ih t (buf ++ [r]) (ln + 1) bn tu ups hbn htu hint

/-- Claim C8, counterexample: interrupting the run on a one-record file
with `batch_size = 1` while the first batch's upload is in flight (after
`batch_num += 1`, before the upload completes) makes the interrupt report
claim 1 batch uploaded although 0 batches were uploaded before the
interrupt, so the report is not exact as the claim states. -/
theorem c8_counterexample :
    (runIntTop ([Line.valid 0] : List (Line Nat)) 1 2).interrupted = true ∧
    (runIntTop ([Line.valid 0] : List (Line Nat)) 1 2).reportedBatches = 1 ∧
    (runIntTop ([Line.valid 0] : List (Line Nat)) 1 2).uploads.length = 0 := by decide

/-- Claim C8, amended: a user interrupt at any point during scanning,
pacing or upload terminates the run without raising, performs no further
upload after the interrupt, and reports exactly the number of records
uploaded before the interrupt; the reported batch count equals the number
of batch uploads begun, which is the number of completed uploads except
when the interrupt lands between sealing a batch and completing its
upload, where it is one greater. -/
theorem c8_amended {α : Type} (lines : List (Line α)) (b ticks : Nat)
    (h : (runIntTop lines b ticks).interrupted = true) :
    (runIntTop lines b ticks).reportedRecords
        = ((runIntTop lines b ticks).uploads.map List.length).sum ∧
    ((runIntTop lines b ticks).reportedBatches = (runIntTop lines b ticks).uploads.length ∨
      (runIntTop lines b ticks).reportedBatches
        = (runIntTop lines b ticks).uploads.length + 1) ∧
    (runIntTop lines b ticks).errored = false :=
  runInt_report b (fileLineCount lines) lines ticks [] 0 0 0 [] rfl rfl h

theorem c8_amended_witness :
    (runIntTop ([Line.valid 0, Line.valid 1] : List (Line Nat)) 1 5).interrupted = true ∧
    ((runIntTop ([Line.valid 0, Line.valid 1] : List (Line Nat)) 1 5).reportedRecords
        = ((runIntTop ([Line.valid 0, Line.valid 1] : List (Line Nat)) 1 5).uploads.map
            List.length).sum ∧
      ((runIntTop ([Line.valid 0, Line.valid 1] : List (Line Nat)) 1 5).reportedBatches
          = (runIntTop ([Line.valid 0, Line.valid 1] : List (Line Nat)) 1 5).uploads.length ∨
        (runIntTop ([Line.valid 0, Line.valid 1] : List (Line Nat)) 1 5).reportedBatches
          = (runIntTop ([Line.valid 0, Line.valid 1] : List (Line Nat)) 1 5).uploads.length
              + 1) ∧
      (runIntTop ([Line.valid 0, Line.valid 1] : List (Line Nat)) 1 5).errored = false) :=
  ⟨by decide, c8_amended ([Line.valid 0, Line.valid 1] : List (Line Nat)) 1 5 (by decide)⟩

theorem char_lt_irrefl (c : Char) : ¬ c < c := by
  intro h
  exact absurd h (lt_irrefl c)

theorem list_lt_append_left :
    ∀ (s t1 t2 : List Char), List.lt t1 t2 → List.lt (s ++ t1) (s ++ t2) := by
  intro s
  induction s with
  | nil => intro t1 t2 h; exact h
  | cons c cs ih =>
    intro t1 t2 h
    exact List.lt.tail (char_lt_irrefl c) (char_lt_irrefl c) (ih t1 t2 h)

theorem list_lt_append_of_length_eq :
    ∀ (t1 t2 : List Char), List.lt t1 t2 → ∀ (u1 u2 : List Char), t1.length = t2.length →
      List.lt (t1 ++ u1) (t2 ++ u2) := by
  intro t1 t2 h
  induction h with
  | nil b bs => intro u1 u2 hlen; simp at hlen
  | head as bs hab => intro u1 u2 _; exact List.lt.head _ _ hab
  | tail h1 h2 _ ih =>
    intro u1 u2 hlen
    exact List.lt.tail h1 h2 (ih u1 u2 (by simpa using hlen))

theorem digitsAux_fuel :
    ∀ (n f1 f2 : Nat), n < f1 → n < f2 → digitsAux f1 n = digitsAux f2 n := by
  intro n
  induction n using Nat.strong_induction_on with
  | _ n ih =>
    intro f1 f2 h1 h2
    cases f1 with
    | zero => omega
    | succ g1 =>
      cases f2 with
      | zero => omega
      | succ g2 =>
        simp only [digitsAux]
        by_cases hn : n < 10
        · simp [hn]
        · simp only [hn, if_false]
          have hdiv : n / 10 < n := Nat.div_lt_self (by omega) (by omega)
          rw [ih (n / 10) hdiv g1 g2 (by omega) (by omega)]

theorem decStr_lt10 (n : Nat) (h : n < 10) : decStr n = [Nat.digitChar n] := by
  simp [decStr, digitsAux, h]

theorem decStr_ge10 (n : Nat) (h : 10 ≤ n) :
    decStr n = decStr (n / 10) ++ [Nat.digitChar (n % 10)] := by
  rw [decStr, decStr]
  have h1 : digitsAux (n + 1) n = digitsAux n (n / 10) ++ [n % 10] := by
    simp [digitsAux, Nat.not_lt.mpr h]
  have hdiv : n / 10 < n := Nat.div_lt_self (by omega) (by omega)
  rw [h1, digitsAux_fuel (n / 10) n (n / 10 + 1) (by omega) (by omega)]
  simp

theorem decStr_length_pos (n : Nat) : 1 ≤ (decStr n).length := by
  by_cases h : n < 10
  · rw [decStr_lt10 n h]; simp
  · rw [decStr_ge10 n (by omega)]; simp

theorem decStr_length_ge4 (n : Nat) (h : 1000 ≤ n) : 4 ≤ (decStr n).length := by
  have ha : 10 ≤ n / 10 := by
    rw [Nat.le_div_iff_mul_le (by omega)]
    omega
  have hb : 10 ≤ n / 10 / 10 := by
    rw [Nat.le_div_iff_mul_le (by omega), Nat.le_div_iff_mul_le (by omega)]
    omega
  rw [decStr_ge10 n (by omega), decStr_ge10 (n / 10) ha, decStr_ge10 (n / 10 / 10) hb]
  have := decStr_length_pos (n / 10 / 10 / 10)
  simp only [List.length_append, List.length_singleton]
  omega

theorem pad3_eq_digits (n : Nat) (h : n ≤ 999) :
    pad3 n = [Nat.digitChar (n / 100), Nat.digitChar (n / 10 % 10), Nat.digitChar (n % 10)] := by
  by_cases h1 : n < 10
  · rw [pad3, decStr_lt10 n h1]
    have e0 : n / 100 = 0 := Nat.div_eq_of_lt (by omega)
    have e1 : n / 10 = 0 := Nat.div_eq_of_lt (by omega)
    have e2 : n % 10 = n := Nat.mod_eq_of_lt h1
    rw [e0, e1, e2]
    rfl
  · by_cases h2 : n < 100
    · have hq : n / 10 < 10 := by omega
      rw [pad3, decStr_ge10 n (by omega), decStr_lt10 (n / 10) hq]
      have e0 : n / 100 = 0 := Nat.div_eq_of_lt (by omega)
      have e1 : n / 10 % 10 = n / 10 := Nat.mod_eq_of_lt hq
      rw [e0, e1]
      rfl
    · have ha : 10 ≤ n / 10 := by omega
      have hbq : n / 10 / 10 < 10 := by
        have : n / 10 / 10 = n / 100 := by rw [Nat.div_div_eq_div_mul]
        omega
      rw [pad3, decStr_ge10 n (by omega), decStr_ge10 (n / 10) ha,
        decStr_lt10 (n / 10 / 10) hbq]
      have e : n / 10 / 10 = n / 100 := by rw [Nat.div_div_eq_div_mul]
      rw [e]
      rfl

theorem digitChar_lt_iff :
    ∀ a, a < 10 → ∀ b, b < 10 → (Nat.digitChar a < Nat.digitChar b ↔ a < b) := by decide

theorem digitChar_inj :
    ∀ a, a < 10 → ∀ b, b < 10 → Nat.digitChar a = Nat.digitChar b → a = b := by decide

theorem decStr_inj : ∀ n m : Nat, decStr n = decStr m → n = m := by
  intro n
  induction n using Nat.strong_induction_on with
  | _ n ih =>
    intro m heq
    by_cases hn : n < 10
    · by_cases hm : m < 10
      · rw [decStr_lt10 n hn, decStr_lt10 m hm] at heq
        exact digitChar_inj n hn m hm (by injection heq)
      · exfalso
        have l1 : (decStr n).length = 1 := by rw [decStr_lt10 n hn]; rfl
        have l2 : 2 ≤ (decStr m).length := by
          rw [decStr_ge10 m (by omega)]
          have := decStr_length_pos (m / 10)
          simp only [List.length_append, List.length_singleton]
          omega
        rw [heq] at l1
        omega
    · by_cases hm : m < 10
      · exfalso
        have l1 : (decStr m).length = 1 := by rw [decStr_lt10 m hm]; rfl
        have l2 : 2 ≤ (decStr n).length := by
          rw [decStr_ge10 n (by omega)]
          have := decStr_length_pos (n / 10)
          simp only [List.length_append, List.length_singleton]
          omega
        rw [heq] at l2
        omega
      · rw [decStr_ge10 n (by omega), decStr_ge10 m (by omega)] at heq
        have hlen : (decStr (n / 10)).length = (decStr (m / 10)).length := by
          have := congrArg List.length heq
          simp only [List.length_append, List.length_singleton] at this
          omega
        obtain ⟨h1, h2⟩ := List.append_inj heq hlen
        have hd : n / 10 = m / 10 :=
          ih (n / 10) (Nat.div_lt_self (by omega) (by omega)) (m / 10) h1
        have hmod : n % 10 = m % 10 :=
          digitChar_inj _ (Nat.mod_lt n (by omega)) _ (Nat.mod_lt m (by omega))
            (by injection h2)
        omega

theorem pad3_length_le999 (n : Nat) (h : n ≤ 999) : (pad3 n).length = 3 := by
  rw [pad3_eq_digits n h]
  rfl

theorem pad3_eq_decStr_of_ge1000 (n : Nat) (h : 1000 ≤ n) : pad3 n = decStr n := by
  have h4 := decStr_length_ge4 n h
  rw [pad3, show 3 - (decStr n).length = 0 by omega]
  simp

theorem pad3_inj : ∀ n m : Nat, pad3 n = pad3 m → n = m := by
  intro n m heq
  by_cases hn : n ≤ 999
  · by_cases hm : m ≤ 999
    · rw [pad3_eq_digits n hn, pad3_eq_digits m hm] at heq
      simp only [List.cons.injEq, and_true] at heq
      obtain ⟨d1, d2, d3⟩ := heq
      have e1 : n / 100 = m / 100 := digitChar_inj _ (by omega) _ (by omega) d1
      have e2 : n / 10 % 10 = m / 10 % 10 := digitChar_inj _ (by omega) _ (by omega) d2
      have e3 : n % 10 = m % 10 := digitChar_inj _ (by omega) _ (by omega) d3
      omega
    · exfalso
      have l1 : (pad3 n).length = 3 := pad3_length_le999 n hn
      have l2 : 4 ≤ (pad3 m).length := by
        rw [pad3_eq_decStr_of_ge1000 m (by omega)]
        exact decStr_length_ge4 m (by omega)
      rw [heq] at l1
      omega
  · by_cases hm : m ≤ 999
    · exfalso
      have l1 : (pad3 m).length = 3 := pad3_length_le999 m hm
      have l2 : 4 ≤ (pad3 n).length := by
        rw [pad3_eq_decStr_of_ge1000 n (by omega)]
        exact decStr_length_ge4 n (by omega)
      rw [← heq] at l1
      omega
    · rw [pad3_eq_decStr_of_ge1000 n (by omega), pad3_eq_decStr_of_ge1000 m (by omega)] at heq
      exact decStr_inj n m heq

theorem pad3_lt (k1 k2 : Nat) (h12 : k1 < k2) (h999 : k2 ≤ 999) :
    List.lt (pad3 k1) (pad3 k2) := by
  rw [pad3_eq_digits k1 (by omega), pad3_eq_digits k2 h999]
  by_cases hA : k1 / 100 < k2 / 100
  · exact List.lt.head _ _ ((digitChar_lt_iff _ (by omega) _ (by omega)).mpr hA)
  · have hAe : k1 / 100 = k2 / 100 := by omega
    rw [hAe]
    by_cases hB : k1 / 10 % 10 < k2 / 10 % 10
    · exact List.lt.tail (char_lt_irrefl _) (char_lt_irrefl _)
        (List.lt.head _ _ ((digitChar_lt_iff _ (by omega) _ (by omega)).mpr hB))
    · have hBe : k1 / 10 % 10 = k2 / 10 % 10 := by omega
      rw [hBe]
      have hC : k1 % 10 < k2 % 10 := by omega
      exact List.lt.tail (char_lt_irrefl _) (char_lt_irrefl _)
        (List.lt.tail (char_lt_irrefl _) (char_lt_irrefl _)
          (List.lt.head _ _ ((digitChar_lt_iff _ (by omega) _ (by omega)).mpr hC)))

theorem s3KeyChars_decomp (kp fn ts : String) (k : Nat) :
    s3KeyChars kp fn ts k
      = (kp.data ++ (stripJsonl fn).data ++ "_batch".data)
          ++ (pad3 k ++ ("_".data ++ ts.data ++ ".parquet".data)) := by
  simp [s3KeyChars, List.append_assoc]

theorem s3Key_ne (kp fn ts : String) (k1 k2 : Nat) (h : k1 ≠ k2) :
    s3Key kp fn ts k1 ≠ s3Key kp fn ts k2 := by
  intro heq
  apply h
  have hd : s3KeyChars kp fn ts k1 = s3KeyChars kp fn ts k2 := congrArg String.data heq
  rw [s3KeyChars_decomp, s3KeyChars_decomp] at hd
  have h1 := List.append_cancel_left hd
  have h2 := List.append_cancel_right h1
  exact pad3_inj _ _ h2

theorem s3Key_lt (kp fn ts : String) (k1 k2 : Nat) (h12 : k1 < k2) (h999 : k2 ≤ 999) :
    s3Key kp fn ts k1 < s3Key kp fn ts k2 := by
  rw [String.lt_iff_toList_lt]
  show List.Lex (fun c d => c < d) (s3KeyChars kp fn ts k1) (s3KeyChars kp fn ts k2)
  rw [← List.lt_iff_lex_lt]
  show List.lt (s3KeyChars kp fn ts k1) (s3KeyChars kp fn ts k2)
  rw [s3KeyChars_decomp, s3KeyChars_decomp]
  apply list_lt_append_left
  apply list_lt_append_of_length_eq
  · exact pad3_lt k1 k2 h12 h999
  · rw [pad3_length_le999 k1 (by omega), pad3_length_le999 k2 h999]

theorem fileLineCount_eq_countNonBlank {α : Type} (lines : List (Line α))
    (hhead : lines.head? ≠ some Line.malformed) :
    fileLineCount lines = countNonBlank lines := by
  cases lines with
  | nil => rfl
  | cons l rest =>
    cases l with
    | malformed => exact absurd rfl hhead
    | blank => rfl
    | valid r => rfl

/-- Claim C7, counterexample: for a source file named `data.txt` the code
builds the key from `filename.replace(".jsonl", "")`, which leaves
`data.txt` unchanged, while the claim's format uses the filename with its
extension stripped (`data`); the two keys differ, so the claim as stated
is false. -/
theorem c7_counterexample :
    stripJsonl "data.txt" = "data.txt" ∧
    stripExt "data.txt" = "data" ∧
    s3Key "raw/data/" "data.txt" "20250101_000000" 1
      = "raw/data/data.txt_batch001_20250101_000000.parquet" ∧
    s3Key "raw/data/" "data.txt" "20250101_000000" 1
      ≠ "raw/data/data_batch001_20250101_000000.parquet" := by decide

/-- Keys and uploads of the streaming loop stay in lockstep on every
path: whenever a batch upload happens its key is recorded with the
incremented `batch_num`, and the error exits (the `ZeroDivisionError`
paths) record neither, so at any exit the key list is exactly the batch
keys `1, ..., uploads.length`.  This needs no assumption on the file or
on `batch_size`. -/
theorem runLoop_keys {α : Type} (kp fn ts : String) (b T : Nat) :
    ∀ (rest : List (Line α)) (buf : List α) (ln bn tu : Nat) (ups : List (List α))
      (ks : List String) (ws : List Bool),
      bn = ups.length →
      ks = (List.range ups.length).map (fun i => s3Key kp fn ts (i + 1)) →
      (runLoop kp fn ts b T rest buf ln bn tu ups ks ws).keys
        = (List.range (runLoop kp fn ts b T rest buf ln bn tu ups ks ws).uploads.length).map
            (fun i => s3Key kp fn ts (i + 1)) := by
  have key_step : ∀ m : Nat,
      (List.range m).map (fun i => s3Key kp fn ts (i + 1)) ++ [s3Key kp fn ts (m + 1)]
        = (List.range (m + 1)).map (fun i => s3Key kp fn ts (i + 1)) := by
    intro m
    rw [List.range_succ, List.map_append]
    rfl
  intro rest
  induction rest with
  | nil =>
    intro buf ln bn tu ups ks ws hbn hks
    by_cases h : buf.isEmpty
    · simp only [runLoop, h, if_true]
      exact hks
    · simp only [runLoop, h, Bool.false_eq_true, if_false]
      rw [hks, hbn, key_step]
      simp [List.length_append]
  | cons l rest ih =>
    intro buf ln bn tu ups ks ws hbn hks
    cases l with
    | malformed =>
      simp only [runLoop]
      exact ih buf ln bn tu ups ks ws hbn hks
    | blank =>
      simp only [runLoop]
      by_cases hs : b ≤ buf.length
      · rw [if_pos hs]
        by_cases hT : T = 0
        · rw [if_pos hT]
          exact hks
        · rw [if_neg hT]
          refine ih [] ln (bn + 1) (tu + buf.length) (ups ++ [buf])
            (ks ++ [s3Key kp fn ts (bn + 1)]) (ws ++ [decide (ln < T)]) ?_ ?_
          · rw [hbn]
            simp
          · rw [hks, hbn, key_step]
            simp [List.length_append]
      · rw [if_neg hs]
        exact ih buf ln bn tu ups ks ws hbn hks
    | valid r =>
      simp only [runLoop]
      by_cases hs : b ≤ (buf ++ [r]).length
      · rw [if_pos hs]
        by_cases hT : T = 0
        · rw [if_pos hT]
          exact hks
        · rw [if_neg hT]
          refine ih [] (ln + 1) (bn + 1) (tu + (buf ++ [r]).length) (ups ++ [buf ++ [r]])
            (ks ++ [s3Key kp fn ts (bn + 1)]) (ws ++ [decide (ln + 1 < T)]) ?_ ?_
          · rw [hbn]
            simp
          · rw [hks, hbn, key_step]
            simp [List.length_append]
      · rw [if_neg hs]
        exact ih (buf ++ [r]) (ln + 1) bn tu ups ks ws hbn hks

/-- Claim C7, amended: in every confirmed run of `upload_in_batches` the
key of the `k`-th uploaded batch is `prefix + (filename with every
occurrence of ".jsonl" removed — not general extension stripping) +
"_batch" + (k zero-padded to at least 3 digits) + "_" + timestamp +
".parquet"`, with the timestamp computed once and shared by all batches
of the run; within one run the keys are pairwise distinct for all batch
numbers, and lexicographically increasing by batch number for batch
numbers up to 999. -/
theorem c7_amended {α : Type} (kp fn ts : String) (lines : List (Line α)) (b : Nat) :
    (uploadInBatches kp fn ts lines b).keys
        = (List.range (uploadInBatches kp fn ts lines b).uploads.length).map
            (fun i => s3Key kp fn ts (i + 1)) ∧
    (∀ k1 k2 : Nat, k1 < k2 → s3Key kp fn ts k1 ≠ s3Key kp fn ts k2) ∧
    (∀ k1 k2 : Nat, k1 < k2 → k2 ≤ 999 → s3Key kp fn ts k1 < s3Key kp fn ts k2) :=
  ⟨runLoop_keys kp fn ts b (fileLineCount lines) lines [] 0 0 0 [] [] [] rfl rfl,
    fun k1 k2 h => s3Key_ne kp fn ts k1 k2 (Nat.ne_of_lt h),
    fun k1 k2 h h9 => s3Key_lt kp fn ts k1 k2 h h9⟩
